import Mathlib

/-!
Shallow embedding of `src/context.rs` of rust-mustache: the compilation
context, the loader trait (`PartialLoader` in the source) and the
file-backed `DefaultLoader`, together with the Unix semantics of the
`std::path` operations (`Path::join`, `PathBuf::set_extension`,
`Path::file_name`, `Path::file_stem`) that `DefaultLoader::load` calls.
Paths are modelled as lists of characters ('/' is the separator).
-/

/-- Split a character list on the separator '/', mirroring how a Unix
path decomposes into slash-separated pieces (empty pieces kept, as in
the raw split underlying `std::path::Components`). -/
def splitOnSep : List Char → List (List Char)
  | [] => [[]]
  | c :: rest =>
    if c = '/' then [] :: splitOnSep rest
    else
      match splitOnSep rest with
      | [] => [[c]]
      | h :: t => (c :: h) :: t

/-- A piece of a split path is a normal-or-parent component when it is
neither empty (repeated or trailing separators) nor the current-dir
piece `"."`, which `std::path::Components` normalizes away. -/
def goodComp (c : List Char) : Bool := !(c == ([] : List Char)) && !(c == ['.'])

/-- The components of a path, as in `std::path::Components` on Unix:
empty pieces and `"."` pieces are dropped, `".."` is kept. -/
def componentsL (l : List Char) : List (List Char) := (splitOnSep l).filter goodComp

/-- `Path::file_name` on Unix: the last component, unless it is `".."`
(or there is none), in which case there is no file name. -/
def fileNameL (l : List Char) : Option (List Char) :=
  match (componentsL l).getLast? with
  | none => none
  | some c => if c = ['.', '.'] then none else some c

/-- Index of the first '.' in a character list (used, on the reversed
tail of a file name, to locate the extension dot exactly as
`split_file_at_dot` in `std::path` does). -/
def fdot : List Char → Option Nat
  | [] => none
  | c :: rest => if c = '.' then some 0 else (fdot rest).map (· + 1)

/-- Length of the stem of a file name `f`, per `std::path`'s
`split_file_at_dot`: the portion before the last '.' that is not in
first position; a name with no such dot (e.g. `".hidden"` or `"foo"`)
is all stem, and `".."` is special-cased as all stem. -/
def stemLenL (f : List Char) : Nat :=
  if f = ['.', '.'] then f.length
  else
    match fdot ((f.drop 1).reverse) with
    | none => f.length
    | some j => f.length - 1 - j

/-- Strip, from a reversed path, the trailing junk that follows the file
name: separator characters and current-dir `"."` pieces (a '.' that is
immediately preceded in the path by a separator). This mirrors
`PathBuf::set_extension` truncating the buffer right after the file
stem, which discards exactly this trailing junk. -/
def dropJunkRev : List Char → List Char
  | [] => []
  | c :: rest =>
    if c = '/' then dropJunkRev rest
    else if c = '.' ∧ rest.head? = some '/' then dropJunkRev rest
    else c :: rest

/-- Remove trailing separators and trailing `"."` components of a path. -/
def rstrip (l : List Char) : List Char := (dropJunkRev l.reverse).reverse

/-- `PathBuf::set_extension` on Unix: if the path has no file stem the
path is unchanged (and `set_extension` returns false); otherwise the
buffer is truncated right after the file stem and, when the new
extension is nonempty, a '.' and the new extension are appended. -/
def setExtensionL (p ext : List Char) : List Char :=
  match fileNameL p with
  | none => p
  | some f =>
    let q := rstrip p
    let stem := q.take (q.length - (f.length - stemLenL f))
    if ext = [] then stem else stem ++ '.' :: ext

/-- `Path::join` (via `PathBuf::push`) on Unix: an absolute argument
replaces the whole path; otherwise the argument is appended, inserting a
separator unless the base is empty or already ends with one. -/
def joinL (base p : List Char) : List Char :=
  if p.head? = some '/' then p
  else if base = [] then p
  else if base.getLast? = some '/' then base ++ p
  else base ++ '/' :: p

/-- Kinds of `std::io::Error`, as far as `DefaultLoader::load` can
observe them (`e.kind()`): the not-found kind it special-cases, and the
other kinds it propagates. `invalidData` is the kind produced by
`read_to_string` when the file content is not valid UTF-8. -/
inductive IoErrorKind where
  | notFound
  | permissionDenied
  | isADirectory
  | invalidData
  | other
deriving DecidableEq

/-- An `std::io::Error`, reduced to the kind, which is all the code
under scrutiny inspects. -/
structure IoError where
  kind : IoErrorKind
deriving DecidableEq

/-- Modelled from the spec: the crate-level `Error` type (its defining
module is not under `src/`; `context.rs` only converts `io::Error` into
it with `From` and names `Error::InvalidStr` in a doc example). Per the
spec's error-kind list: loader / I-O failures carry the underlying
`io::Error`, invalid path-to-string conversion is `InvalidStr`, and
parse failures come from the external compiler. -/
inductive Error where
  | Io (e : IoError)
  | InvalidStr
  | Parser (msg : String)
deriving DecidableEq

/-- Outcome of `File::open` followed by `read_to_string` at a given
location: the open may fail, the read may fail (e.g. with kind
`invalidData` on non-UTF-8 content), or the whole text is returned. -/
inductive FsOutcome where
  | openErr (e : IoError)
  | readErr (e : IoError)
  | content (s : String)

/-- The state of the file system, abstracted as the outcome that
opening-and-reading each location would produce. -/
def Fs : Type := String → FsOutcome

/-- `Path::join` lifted to strings. -/
def pjoin (base p : String) : String := ⟨joinL base.data p.data⟩

/-- `PathBuf::set_extension` lifted to strings. -/
def setExtension (p ext : String) : String := ⟨setExtensionL p.data ext.data⟩

/-- The `DefaultLoader` struct: a template root directory and a template
extension (the suffix forced onto every resolved name). -/
structure DefaultLoader where
  template_path : String
  template_extension : String
deriving DecidableEq

/-- `DefaultLoader::new`. -/
def DefaultLoader.new (template_path template_extension : String) : DefaultLoader :=
  ⟨template_path, template_extension⟩

/-- The location `DefaultLoader::load` resolves for a name:
`self.template_path.join(name)` followed by
`path.set_extension(&self.template_extension)`. -/
def DefaultLoader.resolvedPath (l : DefaultLoader) (name : String) : String :=
  setExtension (pjoin l.template_path name) l.template_extension

/-- `DefaultLoader::load`: resolve the location, open and read it;
an open failure of kind not-found is converted into success with the
empty string, every other failure is propagated into `Error`. -/
def DefaultLoader.load (l : DefaultLoader) (fs : Fs) (name : String) : Except Error String :=
  match fs (l.resolvedPath name) with
  | .content s => .ok s
  | .openErr e => if e.kind = .notFound then .ok "" else .error (.Io e)
  | .readErr e => .error (.Io e)

/-- The loader trait (`PartialLoader` in the source), with its `Clone`
supertrait: a way to obtain the text of a named template, plus
duplication. The file-system state is threaded explicitly; loaders that
do not touch the disk ignore it. -/
class Loader (P : Type) where
  load : Fs → P → String → Except Error String
  clone : P → P

/-- The loader trait implementation of `DefaultLoader` (clone is the
derived field-wise copy). -/
instance : Loader DefaultLoader where
  load fs l name := l.load fs name
  clone l := ⟨l.template_path, l.template_extension⟩

/-- The `Context` struct: shared metadata needed to compile and render a
template; its single field is the loader (`partial_loader` in the
source). -/
structure Context (P : Type) where
  p_loader : P

/-- `Clone` for `Context`, derived: clones the loader field. -/
def Context.clone [Loader P] (c : Context P) : Context P :=
  ⟨Loader.clone c.p_loader⟩

/-- `Context::new`: root path with the fixed default extension
`"mustache"`. -/
def Context.new (path : String) : Context DefaultLoader :=
  ⟨DefaultLoader.new path "mustache"⟩

/-- `Context::with_extension`: root path and explicit extension. -/
def Context.with_extension (path extension : String) : Context DefaultLoader :=
  ⟨DefaultLoader.new path extension⟩

/-- `Context::with_loader`: a caller-supplied loader. -/
def Context.with_loader (loader : P) : Context P :=
  ⟨loader⟩

/-- A compiled `Template`: a clone of the context it was compiled under,
the token stream and the referenced-partial data, the latter two being
opaque products of the external compiler. -/
structure Template (P Tok Par : Type) where
  ctx : Context P
  tokens : Tok
  pnames : Par

/-- `Context::compile`: hand a clone of the context and the character
sequence to the external compiler (abstracted as the function `cc`),
and wrap the resulting tokens and partial data, with another clone of
the context, into a `Template`. -/
def Context.compile [Loader P] (cc : Context P → List Char → Except Error (Tok × Par))
    (c : Context P) (src : List Char) : Except Error (Template P Tok Par) :=
  match cc c.clone src with
  | .ok (tk, pn) => .ok ⟨c.clone, tk, pn⟩
  | .error e => .error e

/-- `Context::compile_path`: obtain the text through the loader, then
delegate to `compile` on its character sequence. -/
def Context.compile_path [Loader P] (cc : Context P → List Char → Except Error (Tok × Par))
    (fs : Fs) (c : Context P) (path : String) : Except Error (Template P Tok Par) :=
  match Loader.load fs c.p_loader path with
  | .ok t => c.compile cc t.data
  | .error e => .error e

/-- A loader that returns the fixed string `"X"` for every name
(a synthetic `PartialLoader` implementation, as in the trait's doc
example). -/
structure FixedLoader where

instance : Loader FixedLoader where
  load _ _ _ := .ok "X"
  clone l := l

/-! Structural lemmas about the path model. -/

theorem str_ext {a b : String} (h : a.data = b.data) : a = b := by
  cases a
  cases b
  cases h
  rfl

theorem str_data_app (a b : String) : (a ++ b).data = a.data ++ b.data := by
  cases a
  cases b
  rfl

theorem splitOnSep_ne_nil (l : List Char) : splitOnSep l ≠ [] := by
  cases l with
  | nil => simp [splitOnSep]
  | cons c rest =>
    simp only [splitOnSep]
    by_cases h : c = '/'
    · simp [h]
    · rw [if_neg h]
      cases hs : splitOnSep rest <;> simp

theorem splitOnSep_cons_sep (rest : List Char) :
    splitOnSep ('/' :: rest) = [] :: splitOnSep rest := by
  simp [splitOnSep]

theorem splitOnSep_cons_ne (c : Char) (rest : List Char) (h : c ≠ '/') :
    splitOnSep (c :: rest) =
      match splitOnSep rest with
      | [] => [[c]]
      | h0 :: t0 => (c :: h0) :: t0 := by
  simp only [splitOnSep, if_neg h]

theorem splitOnSep_append (a b : List Char) :
    splitOnSep (a ++ '/' :: b) = splitOnSep a ++ splitOnSep b := by
  induction a with
  | nil => simp [splitOnSep]
  | cons c a ih =>
    rw [List.cons_append]
    by_cases h : c = '/'
    · subst h
      rw [splitOnSep_cons_sep (a ++ '/' :: b), splitOnSep_cons_sep a, ih, List.cons_append]
    · rw [splitOnSep_cons_ne c (a ++ '/' :: b) h, splitOnSep_cons_ne c a h, ih]
      cases hs : splitOnSep a with
      | nil => exact absurd hs (splitOnSep_ne_nil a)
      | cons h0 t0 => simp

theorem splitOnSep_no_sep (l : List Char) (h : '/' ∉ l) : splitOnSep l = [l] := by
  induction l with
  | nil => simp [splitOnSep]
  | cons c rest ih =>
    have hc : c ≠ '/' := fun e => h (e ▸ List.mem_cons_self c rest)
    have hr : '/' ∉ rest := fun m => h (List.mem_cons_of_mem _ m)
    rw [splitOnSep_cons_ne c rest hc, ih hr]

theorem fdot_cons_ne (c : Char) (rest : List Char) (h : c ≠ '.') :
    fdot (c :: rest) = (fdot rest).map (· + 1) := by
  simp only [fdot, if_neg h]

theorem fdot_none (l : List Char) (h : '.' ∉ l) : fdot l = none := by
  induction l with
  | nil => rfl
  | cons c rest ih =>
    have hc : c ≠ '.' := fun e => h (e ▸ List.mem_cons_self c rest)
    have hr : '.' ∉ rest := fun m => h (List.mem_cons_of_mem _ m)
    rw [fdot_cons_ne c rest hc, ih hr]
    rfl

theorem fdot_lt (l : List Char) (j : Nat) (h : fdot l = some j) : j < l.length := by
  induction l generalizing j with
  | nil => simp [fdot] at h
  | cons c rest ih =>
    by_cases hc : c = '.'
    · subst hc
      have : fdot ('.' :: rest) = some 0 := by simp [fdot]
      rw [this] at h
      cases h
      simp
    · rw [fdot_cons_ne c rest hc] at h
      cases hr : fdot rest with
      | none => rw [hr] at h; simp at h
      | some j0 =>
        rw [hr] at h
        simp only [Option.map_some'] at h
        cases h
        have := ih j0 hr
        simp only [List.length_cons]
        omega

theorem fdot_append (a b : List Char) (h : fdot a = none) :
    fdot (a ++ b) = (fdot b).map (· + a.length) := by
  induction a with
  | nil =>
    rw [List.nil_append, List.length_nil]
    cases hb : fdot b <;> simp
  | cons c a ih =>
    by_cases hc : c = '.'
    · subst hc
      have : fdot ('.' :: a) = some 0 := by simp [fdot]
      rw [this] at h
      simp at h
    · rw [fdot_cons_ne c a hc] at h
      have ha : fdot a = none := by
        cases hfa : fdot a
        · rfl
        · rw [hfa] at h; simp at h
      rw [List.cons_append, fdot_cons_ne c (a ++ b) hc, ih ha]
      cases hb : fdot b with
      | none => rfl
      | some j =>
        simp only [Option.map_some', List.length_cons, Option.some.injEq]
        omega

theorem dropJunkRev_cons (c : Char) (t : List Char) (h1 : c ≠ '/')
    (h2 : ¬(c = '.' ∧ t.head? = some '/')) : dropJunkRev (c :: t) = c :: t := by
  simp only [dropJunkRev, if_neg h1, if_neg h2]

theorem goodComp_true (c : List Char) (h1 : c ≠ []) (h2 : c ≠ ['.']) : goodComp c = true := by
  simp [goodComp, h1, h2]

theorem componentsL_append (d X : List Char) (h1 : '/' ∉ X) (h2 : X ≠ []) (h3 : X ≠ ['.']) :
    componentsL (d ++ '/' :: X) = componentsL d ++ [X] := by
  unfold componentsL
  rw [splitOnSep_append, List.filter_append, splitOnSep_no_sep X h1]
  simp [List.filter, goodComp_true X h2 h3]

theorem fileNameL_append (d X : List Char) (h1 : '/' ∉ X) (h2 : X ≠ []) (h3 : X ≠ ['.'])
    (h4 : X ≠ ['.', '.']) : fileNameL (d ++ '/' :: X) = some X := by
  unfold fileNameL
  rw [componentsL_append d X h1 h2 h3, List.getLast?_concat]
  show (if X = ['.', '.'] then none else some X) = some X
  rw [if_neg h4]

theorem rstrip_append (d X : List Char) (h1 : '/' ∉ X) (h2 : X ≠ []) (h3 : X ≠ ['.']) :
    rstrip (d ++ '/' :: X) = d ++ '/' :: X := by
  have hrev : (d ++ '/' :: X).reverse = X.reverse ++ '/' :: d.reverse := by
    simp
  have key : dropJunkRev ((d ++ '/' :: X).reverse) = (d ++ '/' :: X).reverse := by
    rw [hrev]
    cases hX : X.reverse with
    | nil =>
      exact absurd (by simpa using congrArg List.reverse hX) h2
    | cons y ys =>
      rw [List.cons_append]
      have hy : y ∈ X := by
        have : y ∈ X.reverse := by rw [hX]; exact List.mem_cons_self y ys
        simpa using this
      refine dropJunkRev_cons y _ (fun e => h1 (e ▸ hy)) ?_
      rintro ⟨hdot, hhead⟩
      cases ys with
      | nil =>
        have : X = ['.'] := by
          have := congrArg List.reverse hX
          simpa [hdot] using this
        exact h3 this
      | cons z ys' =>
        have hz : z ∈ X := by
          have : z ∈ X.reverse := by rw [hX]; simp
          simpa using this
        simp only [List.cons_append, List.head?_cons, Option.some.injEq] at hhead
        exact h1 (hhead ▸ hz)
  unfold rstrip
  rw [key, List.reverse_reverse]

theorem stemLenL_le (f : List Char) : stemLenL f ≤ f.length := by
  unfold stemLenL
  split
  · exact Nat.le_refl _
  · split
    · exact Nat.le_refl _
    · omega

theorem stemLenL_pos (f : List Char) (h : f ≠ []) : 1 ≤ stemLenL f := by
  unfold stemLenL
  split
  · rename_i hf
    rw [hf]
    simp
  · split
    · cases f
      · exact absurd rfl h
      · simp
    · rename_i j hj
      have hlt := fdot_lt _ _ hj
      have hlen : (f.drop 1).reverse.length = f.length - 1 := by simp
      have hfl : 1 ≤ f.length := by
        cases f
        · exact absurd rfl h
        · simp
      omega

theorem joinL_rel (root name : List Char) (hr1 : root ≠ []) (hr2 : root.getLast? ≠ some '/')
    (hn : name.head? ≠ some '/') : joinL root name = root ++ '/' :: name := by
  unfold joinL
  rw [if_neg hn, if_neg hr1, if_neg hr2]

theorem stemLenL_ext (s e : List Char) (hs : s ≠ []) (he : '.' ∉ e)
    (hne : s ++ '.' :: e ≠ ['.', '.']) : stemLenL (s ++ '.' :: e) = s.length := by
  unfold stemLenL
  rw [if_neg hne]
  obtain ⟨c, s', rfl⟩ : ∃ c s', s = c :: s' := by
    cases s with
    | nil => exact absurd rfl hs
    | cons c s' => exact ⟨c, s', rfl⟩
  rw [List.cons_append, List.drop_succ_cons, List.drop_zero, List.reverse_append]
  have herev : '.' ∉ e.reverse := by simpa using he
  have hsplit : ('.' :: e).reverse ++ s'.reverse = e.reverse ++ ('.' :: s'.reverse) := by
    simp
  rw [hsplit, fdot_append _ _ (fdot_none _ herev)]
  have hdot : fdot ('.' :: s'.reverse) = some 0 := by simp [fdot]
  rw [hdot]
  simp only [Option.map_some', List.length_reverse, List.length_cons, List.length_append]
  omega

theorem stemLenL_noext (X : List Char) (h4 : X ≠ ['.', '.']) (h : '.' ∉ X.drop 1) :
    stemLenL X = X.length := by
  unfold stemLenL
  have : '.' ∉ (X.drop 1).reverse := by simpa using h
  rw [if_neg h4, fdot_none _ this]

theorem setExtensionL_app (d X sfx : List Char) (h1 : '/' ∉ X) (h2 : X ≠ [])
    (h3 : X ≠ ['.']) (h4 : X ≠ ['.', '.']) :
    setExtensionL (d ++ '/' :: X) sfx =
      (d ++ '/' :: X.take (stemLenL X)) ++ (if sfx = [] then [] else '.' :: sfx) := by
  unfold setExtensionL
  rw [fileNameL_append d X h1 h2 h3 h4]
  show (let q := rstrip (d ++ '/' :: X);
        let stem := q.take (q.length - (X.length - stemLenL X));
        if sfx = [] then stem else stem ++ '.' :: sfx) = _
  rw [rstrip_append d X h1 h2 h3]
  have hk : stemLenL X ≤ X.length := stemLenL_le X
  have hlen : (d ++ '/' :: X).length = d.length + (1 + X.length) := by
    simp
    omega
  have harith : (d ++ '/' :: X).length - (X.length - stemLenL X) = d.length + (1 + stemLenL X) := by
    rw [hlen]
    omega
  have htake : (d ++ '/' :: X).take (d.length + (1 + stemLenL X)) = d ++ '/' :: X.take (stemLenL X) := by
    rw [List.take_append (1 + stemLenL X), Nat.add_comm 1 (stemLenL X), List.take_succ_cons]
  show (if sfx = [] then
          (d ++ '/' :: X).take ((d ++ '/' :: X).length - (X.length - stemLenL X))
        else
          (d ++ '/' :: X).take ((d ++ '/' :: X).length - (X.length - stemLenL X)) ++ '.' :: sfx) = _
  rw [harith, htake]
  by_cases hsfx : sfx = []
  · rw [if_pos hsfx, if_pos hsfx, List.append_nil]
  · rw [if_neg hsfx, if_neg hsfx]

/-! Claim theorems. -/

/-- C1: for every configuration (root, suffix) and every name, if the
file at the resolved location does not exist (`File::open` fails with
the not-found kind), `DefaultLoader::load` returns success carrying the
empty string, not an error. -/
theorem load_missing_is_empty_ok (l : DefaultLoader) (fs : Fs) (name : String)
    (h : fs (l.resolvedPath name) = .openErr ⟨.notFound⟩) :
    l.load fs name = .ok "" := by
  unfold DefaultLoader.load
  rw [h]
  rfl

theorem load_missing_is_empty_ok_witness :
    DefaultLoader.load ⟨"r", "mustache"⟩ (fun _ => FsOutcome.openErr ⟨IoErrorKind.notFound⟩)
      "foo" = .ok "" :=
  load_missing_is_empty_ok ⟨"r", "mustache"⟩
    (fun _ => FsOutcome.openErr ⟨IoErrorKind.notFound⟩) "foo" rfl

/-- C3: every I/O failure other than not-found — whether failing to open
the file or failing to read it — is propagated by `DefaultLoader::load`
as an error carrying that failure; only the not-found open condition is
converted into a success. -/
theorem load_propagates_non_notfound (l : DefaultLoader) (fs : Fs) (name : String) (e : IoError)
    (hk : e.kind ≠ .notFound)
    (h : fs (l.resolvedPath name) = .openErr e ∨ fs (l.resolvedPath name) = .readErr e) :
    l.load fs name = .error (.Io e) := by
  unfold DefaultLoader.load
  rcases h with h | h
  · rw [h]
    show (if e.kind = .notFound then Except.ok "" else Except.error (Error.Io e)) = _
    rw [if_neg hk]
  · rw [h]

theorem load_propagates_non_notfound_witness :
    DefaultLoader.load ⟨"r", "mustache"⟩
      (fun _ => FsOutcome.openErr ⟨IoErrorKind.permissionDenied⟩) "foo" =
      .error (.Io ⟨IoErrorKind.permissionDenied⟩) :=
  load_propagates_non_notfound ⟨"r", "mustache"⟩
    (fun _ => FsOutcome.openErr ⟨IoErrorKind.permissionDenied⟩) "foo"
    ⟨IoErrorKind.permissionDenied⟩ (by decide) (Or.inl rfl)

/-- C4: when the resolved file exists but its content is not valid text
(the read fails with the invalid-data kind, as `read_to_string` does on
non-UTF-8 content), `load` returns an error; that error differs from
every error carrying any other I/O kind, and from the successful empty
result that a not-found file produces. -/
theorem load_invalid_data_error_distinct (l : DefaultLoader) (fs : Fs) (name : String)
    (h : fs (l.resolvedPath name) = .readErr ⟨.invalidData⟩) :
    l.load fs name = .error (.Io ⟨.invalidData⟩) ∧
      (∀ e : IoError, e.kind ≠ .invalidData → Error.Io ⟨.invalidData⟩ ≠ Error.Io e) ∧
      l.load fs name ≠ .ok "" := by
  have h1 : l.load fs name = .error (.Io ⟨.invalidData⟩) := by
    unfold DefaultLoader.load
    rw [h]
  refine ⟨h1, ?_, ?_⟩
  · intro e he heq
    obtain ⟨k⟩ := e
    injection heq with h2
    injection h2 with h3
    exact he h3.symm
  · rw [h1]
    simp

theorem load_invalid_data_error_distinct_witness :
    DefaultLoader.load ⟨"r", "mustache"⟩
      (fun _ => FsOutcome.readErr ⟨IoErrorKind.invalidData⟩) "foo" =
        .error (.Io ⟨IoErrorKind.invalidData⟩) ∧
      (∀ e : IoError, e.kind ≠ .invalidData → Error.Io ⟨IoErrorKind.invalidData⟩ ≠ Error.Io e) ∧
      DefaultLoader.load ⟨"r", "mustache"⟩
        (fun _ => FsOutcome.readErr ⟨IoErrorKind.invalidData⟩) "foo" ≠ .ok "" :=
  load_invalid_data_error_distinct ⟨"r", "mustache"⟩
    (fun _ => FsOutcome.readErr ⟨IoErrorKind.invalidData⟩) "foo" rfl

/-- C7: over any loader whose `load` returns the fixed string "X" for
every name, `compile_path(name)` returns the same result — Template or
error — as `compile` on the character sequence of "X", for every name
and every behavior of the external compiler. -/
theorem compile_path_fixed_loader {P Tok Par : Type} [Loader P]
    (cc : Context P → List Char → Except Error (Tok × Par)) (fs : Fs) (c : Context P)
    (h : ∀ n : String, Loader.load fs c.p_loader n = .ok "X") (name : String) :
    Context.compile_path cc fs c name = Context.compile cc c ("X".data) := by
  unfold Context.compile_path
  rw [h name]

theorem compile_path_fixed_loader_witness :
    Context.compile_path (fun (_ : Context FixedLoader) (_ : List Char) => Except.ok (0, 0))
      (fun _ => FsOutcome.content "ignored") (Context.with_loader FixedLoader.mk) "any/name" =
    Context.compile (fun (_ : Context FixedLoader) (_ : List Char) => Except.ok (0, 0))
      (Context.with_loader FixedLoader.mk) ("X".data) :=
  compile_path_fixed_loader _ _ _ (fun _ => rfl) "any/name"

/-- C8: `Context::new(path)` builds exactly the context that
`Context::with_extension(path, "mustache")` builds: the same
`DefaultLoader` with `template_path = path` and
`template_extension = "mustache"`. -/
theorem context_new_is_with_extension_mustache (path : String) :
    Context.new path = Context.with_extension path "mustache" := rfl

theorem context_clone_eq {P : Type} [Loader P] (c : Context P)
    (h : Loader.clone c.p_loader = c.p_loader) : c.clone = c := by
  cases c with
  | mk l => exact congrArg Context.mk h

/-- C9: when the loader's clone is an equivalent copy (as `DefaultLoader`'s
derived field-wise clone is), calling `compile_path` on the cloned
context returns the same result as on the original, for the same
backing resource and the same external compiler. -/
theorem clone_compile_path_eq {P Tok Par : Type} [Loader P]
    (cc : Context P → List Char → Except Error (Tok × Par)) (fs : Fs) (c : Context P)
    (h : Loader.clone c.p_loader = c.p_loader) (path : String) :
    Context.compile_path cc fs c.clone path = Context.compile_path cc fs c path := by
  rw [context_clone_eq c h]

theorem clone_compile_path_eq_witness :
    Context.compile_path (fun (_ : Context DefaultLoader) (_ : List Char) => Except.ok (0, 0))
      (fun _ => FsOutcome.content "Hello") (Context.new "templates").clone "greeting" =
    Context.compile_path (fun (_ : Context DefaultLoader) (_ : List Char) => Except.ok (0, 0))
      (fun _ => FsOutcome.content "Hello") (Context.new "templates") "greeting" :=
  clone_compile_path_eq _ _ _ rfl "greeting"

theorem head?_ne_sep_of_nosep (X : List Char) (h1 : '/' ∉ X) (h2 : X ≠ []) :
    X.head? ≠ some '/' := by
  cases hx : X with
  | nil => exact absurd hx h2
  | cons c t =>
    rw [List.head?_cons]
    intro hq
    injection hq with hq
    exact h1 (by rw [hx, ← hq]; exact List.mem_cons_self c t)

theorem ext_name_nosep (s e : List Char) (hs1 : '/' ∉ s) (he1 : '/' ∉ e) :
    '/' ∉ s ++ '.' :: e := by
  intro hm
  rcases List.mem_append.1 hm with hm | hm
  · exact hs1 hm
  · rcases List.mem_cons.1 hm with hm | hm
    · exact absurd hm (by decide)
    · exact he1 hm

theorem ext_name_ne_dotdot (s e : List Char) (hs2 : s ≠ [])
    (hne : ¬(s = ['.'] ∧ e = [])) : s ++ '.' :: e ≠ ['.', '.'] := by
  intro hq
  cases hsd : s with
  | nil => exact hs2 hsd
  | cons c s' =>
    rw [hsd, List.cons_append] at hq
    injection hq with hq1 hq2
    cases hs' : s' with
    | nil =>
      rw [hs', List.nil_append] at hq2
      injection hq2 with hq3 hq4
      exact hne ⟨by rw [hsd, hs', hq1], hq4⟩
    | cons c2 s'' =>
      rw [hs', List.cons_append] at hq2
      injection hq2 with hq3 hq4
      simp at hq4

theorem ext_name_ne_dot (s e : List Char) (hs2 : s ≠ []) : s ++ '.' :: e ≠ ['.'] := by
  intro hq
  have hlen := congrArg List.length hq
  simp at hlen
  have : 0 < s.length := List.length_pos.2 hs2
  omega

/-- Data-level description of the location resolved for a name of the
form `s.e` where `e` is the name's (dot- and separator-free) extension:
the extension is cut off and the configured suffix governs the tail. -/
theorem resolvedPath_ext_data (root sfx s e : String)
    (hr1 : root.data ≠ []) (hr2 : root.data.getLast? ≠ some '/')
    (hs1 : '/' ∉ s.data) (hs2 : s.data ≠ [])
    (he1 : '/' ∉ e.data) (he2 : '.' ∉ e.data)
    (hne : ¬(s.data = ['.'] ∧ e.data = [])) :
    (DefaultLoader.resolvedPath ⟨root, sfx⟩ (s ++ "." ++ e)).data =
      (root.data ++ '/' :: s.data) ++
        (if sfx.data = [] then [] else '.' :: sfx.data) := by
  have hname : (s ++ "." ++ e).data = s.data ++ '.' :: e.data := by
    rw [str_data_app, str_data_app]
    simp
  have hx1 := ext_name_nosep s.data e.data hs1 he1
  have hx2 : s.data ++ '.' :: e.data ≠ [] := by simp
  have hx3 := ext_name_ne_dot s.data e.data hs2
  have hx4 := ext_name_ne_dotdot s.data e.data hs2 hne
  have hhead : (s.data ++ '.' :: e.data).head? ≠ some '/' :=
    head?_ne_sep_of_nosep _ hx1 hx2
  show setExtensionL (joinL root.data (s ++ "." ++ e).data) sfx.data = _
  rw [hname, joinL_rel root.data _ hr1 hr2 hhead,
      setExtensionL_app root.data _ sfx.data hx1 hx2 hx3 hx4,
      stemLenL_ext s.data e.data hs2 he2 hx4, List.take_left]

/-- C2: a name that already carries an extension has it replaced by the
configured suffix rather than concatenated: for every root (nonempty,
without trailing separator), every nonempty suffix, and every name
`s.e` whose final extension `e` is dot- and separator-free, the
resolved location is `root/s.suffix` — e.g. `"foo.txt"` with suffix
`"mustache"` resolves to `root/foo.mustache`, not
`root/foo.txt.mustache`. -/
theorem resolvedPath_replaces_extension (root sfx s e : String)
    (hr1 : root.data ≠ []) (hr2 : root.data.getLast? ≠ some '/')
    (hs1 : '/' ∉ s.data) (hs2 : s.data ≠ [])
    (he1 : '/' ∉ e.data) (he2 : '.' ∉ e.data)
    (hne : ¬(s.data = ['.'] ∧ e.data = []))
    (hsfx : sfx.data ≠ []) :
    DefaultLoader.resolvedPath ⟨root, sfx⟩ (s ++ "." ++ e) =
      root ++ "/" ++ s ++ "." ++ sfx := by
  apply str_ext
  have hrhs : (root ++ "/" ++ s ++ "." ++ sfx).data =
      root.data ++ '/' :: (s.data ++ '.' :: sfx.data) := by
    rw [str_data_app, str_data_app, str_data_app, str_data_app]
    simp
  rw [resolvedPath_ext_data root sfx s e hr1 hr2 hs1 hs2 he1 he2 hne, if_neg hsfx, hrhs]
  simp

theorem resolvedPath_replaces_extension_witness :
    DefaultLoader.resolvedPath ⟨"r", "mustache"⟩ ("foo" ++ "." ++ "txt") =
      "r" ++ "/" ++ "foo" ++ "." ++ "mustache" :=
  resolvedPath_replaces_extension "r" "mustache" "foo" "txt" (by decide) (by decide)
    (by decide) (by decide) (by decide) (by decide) (by decide) (by decide)

/-- C10: a name whose final component carries no extension — including a
dotfile-style name such as `".hidden"`, whose single leading dot is not
an extension separator — has a dot and the configured suffix appended,
replacing nothing: the resolved location is `root/name.suffix`. -/
theorem resolvedPath_appends_when_no_extension (root sfx X : String)
    (hr1 : root.data ≠ []) (hr2 : root.data.getLast? ≠ some '/')
    (hx1 : '/' ∉ X.data) (hx2 : X.data ≠ []) (hx3 : X.data ≠ ['.'])
    (hx4 : X.data ≠ ['.', '.']) (hnd : '.' ∉ X.data.drop 1)
    (hsfx : sfx.data ≠ []) :
    DefaultLoader.resolvedPath ⟨root, sfx⟩ X = root ++ "/" ++ X ++ "." ++ sfx := by
  apply str_ext
  have hrhs : (root ++ "/" ++ X ++ "." ++ sfx).data =
      root.data ++ '/' :: (X.data ++ '.' :: sfx.data) := by
    rw [str_data_app, str_data_app, str_data_app, str_data_app]
    simp
  rw [hrhs]
  show setExtensionL (joinL root.data X.data) sfx.data = _
  rw [joinL_rel root.data X.data hr1 hr2 (head?_ne_sep_of_nosep X.data hx1 hx2),
      setExtensionL_app root.data X.data sfx.data hx1 hx2 hx3 hx4,
      stemLenL_noext X.data hx4 hnd, List.take_length, if_neg hsfx]
  simp

theorem resolvedPath_appends_when_no_extension_witness :
    DefaultLoader.resolvedPath ⟨"r", "mustache"⟩ ".hidden" =
      "r" ++ "/" ++ ".hidden" ++ "." ++ "mustache" :=
  resolvedPath_appends_when_no_extension "r" "mustache" ".hidden" (by decide) (by decide)
    (by decide) (by decide) (by decide) (by decide) (by decide) (by decide)

/-- C5 counterexample: with root `"r"` and suffix `"mustache"`, the
absolute name `"/abs/foo"` resolves to `"/abs/foo.mustache"`:
`Path::join` discards the base when its argument is absolute, so the
location does not begin with `"r/"` and does not lie under the root. -/
theorem resolvedPath_absolute_escapes_root :
    DefaultLoader.resolvedPath ⟨"r", "mustache"⟩ "/abs/foo" = "/abs/foo.mustache" ∧
      (DefaultLoader.resolvedPath ⟨"r", "mustache"⟩ "/abs/foo").data.take 2 ≠ ("r" ++ "/").data := by
  constructor
  · decide
  · decide

/-- C5 amended: for a relative name — a separator-free component `X`
optionally preceded by a relative directory part `d` — the resolved
location lies under the configured root, of the form `{root}/{rest}`;
an absolute name instead replaces the root entirely under platform join
semantics. -/
theorem resolvedPath_relative_under_root (root sfx d X : String)
    (hr1 : root.data ≠ []) (hr2 : root.data.getLast? ≠ some '/')
    (hd : d.data.head? ≠ some '/')
    (hx1 : '/' ∉ X.data) (hx2 : X.data ≠ []) (hx3 : X.data ≠ ['.'])
    (hx4 : X.data ≠ ['.', '.']) :
    ∃ rest : List Char, rest ≠ [] ∧
      (DefaultLoader.resolvedPath ⟨root, sfx⟩
          (if d = "" then X else d ++ "/" ++ X)).data =
        root.data ++ '/' :: rest := by
  have hhead := head?_ne_sep_of_nosep X.data hx1 hx2
  by_cases hd0 : d = ""
  · rw [if_pos hd0]
    refine ⟨X.data.take (stemLenL X.data) ++
      (if sfx.data = [] then [] else '.' :: sfx.data), ?_, ?_⟩
    · intro hq
      rcases List.append_eq_nil.1 hq with ⟨hq1, _⟩
      rcases List.take_eq_nil_iff.1 hq1 with h0 | h0
      · have := stemLenL_pos X.data hx2
        omega
      · exact hx2 h0
    · show setExtensionL (joinL root.data X.data) sfx.data = _
      rw [joinL_rel root.data X.data hr1 hr2 hhead,
          setExtensionL_app root.data X.data sfx.data hx1 hx2 hx3 hx4]
      simp
  · rw [if_neg hd0]
    have hdne : d.data ≠ [] := fun hq => hd0 (str_ext (by rw [hq]))
    have hname : (d ++ "/" ++ X).data = d.data ++ '/' :: X.data := by
      rw [str_data_app, str_data_app]
      simp
    refine ⟨d.data ++ '/' :: (X.data.take (stemLenL X.data) ++
      (if sfx.data = [] then [] else '.' :: sfx.data)), by simp, ?_⟩
    show setExtensionL (joinL root.data (d ++ "/" ++ X).data) sfx.data = _
    rw [hname]
    have hjoin : joinL root.data (d.data ++ '/' :: X.data) =
        root.data ++ '/' :: (d.data ++ '/' :: X.data) := by
      apply joinL_rel root.data _ hr1 hr2
      rw [List.head?_append_of_ne_nil d.data hdne]
      exact hd
    rw [hjoin,
        show root.data ++ '/' :: (d.data ++ '/' :: X.data) =
          (root.data ++ '/' :: d.data) ++ '/' :: X.data from by simp,
        setExtensionL_app (root.data ++ '/' :: d.data) X.data sfx.data hx1 hx2 hx3 hx4]
    simp

theorem resolvedPath_relative_under_root_witness :
    ∃ rest : List Char, rest ≠ [] ∧
      (DefaultLoader.resolvedPath ⟨"r", "mustache"⟩
          (if ("sub" : String) = "" then "foo" else "sub" ++ "/" ++ "foo")).data =
        ("r" : String).data ++ '/' :: rest :=
  resolvedPath_relative_under_root "r" "mustache" "sub" "foo" (by decide) (by decide)
    (by decide) (by decide) (by decide) (by decide) (by decide)

/-- C6 counterexample: with the empty suffix, `set_extension("")` only
removes the name's extension: `"foo.txt"` under root `"r"` resolves to
`"r/foo"`, which does not end with a separator — there is no trailing
separator artifact. -/
theorem resolvedPath_empty_suffix_no_artifact :
    DefaultLoader.resolvedPath ⟨"r", ""⟩ "foo.txt" = "r/foo" ∧
      (DefaultLoader.resolvedPath ⟨"r", ""⟩ "foo.txt").data.getLast? ≠ some '/' := by
  constructor
  · decide
  · decide

/-- C6 amended: if the configured suffix is the empty string, the
resolved location for a name `s.e` is `{root}/{s}` — the extension is
removed and nothing (in particular no separator and no dot) is
appended; the degenerate configuration is honored as plain extension
removal, not silently normalized to a nonempty suffix. -/
theorem resolvedPath_empty_suffix_strips (root s e : String)
    (hr1 : root.data ≠ []) (hr2 : root.data.getLast? ≠ some '/')
    (hs1 : '/' ∉ s.data) (hs2 : s.data ≠ [])
    (he1 : '/' ∉ e.data) (he2 : '.' ∉ e.data)
    (hne : ¬(s.data = ['.'] ∧ e.data = [])) :
    DefaultLoader.resolvedPath ⟨root, ""⟩ (s ++ "." ++ e) = root ++ "/" ++ s ∧
      (DefaultLoader.resolvedPath ⟨root, ""⟩ (s ++ "." ++ e)).data.getLast? ≠ some '/' := by
  have hrhs : (root ++ "/" ++ s).data = root.data ++ '/' :: s.data := by
    rw [str_data_app, str_data_app]
    simp
  have hmain : DefaultLoader.resolvedPath ⟨root, ""⟩ (s ++ "." ++ e) = root ++ "/" ++ s := by
    apply str_ext
    rw [resolvedPath_ext_data root "" s e hr1 hr2 hs1 hs2 he1 he2 hne, hrhs]
    simp
  refine ⟨hmain, ?_⟩
  rw [hmain, hrhs,
      show root.data ++ '/' :: s.data = (root.data ++ ['/']) ++ s.data from by simp,
      List.getLast?_append_of_ne_nil _ hs2]
  intro heq
  exact hs1 (List.mem_of_getLast?_eq_some heq)

theorem resolvedPath_empty_suffix_strips_witness :
    DefaultLoader.resolvedPath ⟨"base", ""⟩ ("name" ++ "." ++ "ext") = "base" ++ "/" ++ "name" ∧
      (DefaultLoader.resolvedPath ⟨"base", ""⟩ ("name" ++ "." ++ "ext")).data.getLast? ≠
        some '/' :=
  resolvedPath_empty_suffix_strips "base" "name" "ext" (by decide) (by decide) (by decide)
    (by decide) (by decide) (by decide) (by decide)
